import Mathlib

/-!
Verification of the piranha core data structures: a shallow embedding of the
hybrid arbitrary-precision integer (`mp_integer`) and of the separate-chaining
hash table (`hash_set`), together with proofs of the specified properties.

The hash set is embedded from `src/hash_set.hpp`.  The `mp_integer`
implementation file is not part of the excerpted sources (only its test suite
is), so the hybrid integer is modelled from the specification text.
-/

namespace Piranha

/-- Error kinds of the library, as classified by the spec's error taxonomy:
overflow, zero-division, domain/invalid-argument and allocation failure. -/
inductive PiranhaError where
  | overflow
  | zero_division
  | invalid_argument
  | bad_alloc
deriving DecidableEq

/-! ## Hybrid big-integer (modelled from the spec)

The `mp_integer.hpp` implementation is not among the excerpted sources, so the
following definitions are modelled from the specification: a hybrid integer is
a tagged union of a static (inline, capacity-bounded) representation and a
dynamic (arbitrary-precision) representation; both represent an exact signed
integer, which we carry as `Int`. -/

/-- Modelled from the spec: whether a value fits the static storage of a
hybrid integer whose fixed bit-width parameter allows magnitudes below
`2 ^ cap`. -/
def staticFits (cap : Nat) (v : Int) : Bool := v.natAbs < 2 ^ cap

/-- Modelled from the spec: a hybrid big-integer is a tagged union; `dyn` is
the runtime storage tag (`false` = static, `true` = dynamic) and `val` the
exact integer value represented. -/
structure Hybrid where
  dyn : Bool
  val : Int
deriving DecidableEq

/-- Modelled from the spec: construction from a native integer selects static
storage when the value fits the fixed limb capacity and dynamic storage
otherwise. -/
def mkHybrid (cap : Nat) (a : Int) : Hybrid := ⟨!staticFits cap a, a⟩

/-- Modelled from the spec: `promote()` switches to dynamic storage; it is a
no-op on an already-dynamic value. -/
def Hybrid.promote (a : Hybrid) : Hybrid := ⟨true, a.val⟩

/-- Conditionally promote, used to quantify over "manually pre-promoted or
not" in the static/dynamic equivalence property. -/
def condPromote (p : Bool) (a : Hybrid) : Hybrid := if p then a.promote else a

/-- Modelled from the spec: the result of attempting an arithmetic operation
on the static path; `none` signals overflow of the fixed limb capacity. -/
def staticOpResult (cap : Nat) (r : Int) : Option Int :=
  if staticFits cap r then some r else none

/-- Modelled from the spec: arithmetic first attempts the static path when
both operands are static and transparently promotes to dynamic storage on
overflow; if either operand is dynamic the operation is carried out
dynamically.  Both paths compute the exact mathematical result `f`. -/
def hybridArith (cap : Nat) (f : Int → Int → Int) (a b : Hybrid) : Hybrid :=
  if a.dyn || b.dyn then ⟨true, f a.val b.val⟩
  else
    match staticOpResult cap (f a.val b.val) with
    | some r => ⟨false, r⟩
    | none => ⟨true, f a.val b.val⟩

/-- Modelled from the spec: hybrid addition. -/
def Hybrid.addH (cap : Nat) (a b : Hybrid) : Hybrid :=
  hybridArith cap (fun x y => x + y) a b

/-- Modelled from the spec: hybrid subtraction. -/
def Hybrid.subH (cap : Nat) (a b : Hybrid) : Hybrid :=
  hybridArith cap (fun x y => x - y) a b

/-- Modelled from the spec: hybrid multiplication. -/
def Hybrid.mulH (cap : Nat) (a b : Hybrid) : Hybrid :=
  hybridArith cap (fun x y => x * y) a b

/-- Modelled from the spec: hybrid division truncates toward zero and fails
with the zero-division kind when the divisor is zero. -/
def Hybrid.divH (cap : Nat) (a b : Hybrid) : Except PiranhaError Hybrid :=
  if b.val = 0 then .error .zero_division
  else .ok (hybridArith cap (fun x y => Int.tdiv x y) a b)

/-- Modelled from the spec: hybrid modulo; the remainder of truncating
division, failing with the zero-division kind when the divisor is zero. -/
def Hybrid.modH (cap : Nat) (a b : Hybrid) : Except PiranhaError Hybrid :=
  if b.val = 0 then .error .zero_division
  else .ok (hybridArith cap (fun x y => Int.tmod x y) a b)

/-- Modelled from the spec: division of a hybrid integer by a native integer
divisor behaves as division by that integer value. -/
def Hybrid.divIntH (cap : Nat) (a : Hybrid) (n : Int) : Except PiranhaError Hybrid :=
  Hybrid.divH cap a (mkHybrid cap n)

/-- Modelled from the spec: modulo of a hybrid integer by a native integer
divisor behaves as modulo by that integer value. -/
def Hybrid.modIntH (cap : Nat) (a : Hybrid) (n : Int) : Except PiranhaError Hybrid :=
  Hybrid.modH cap a (mkHybrid cap n)

/-- Modelled from the spec: in-place division `a /= b` computes the quotient
and assigns it to `a`; when the computation fails the exception propagates
before any assignment, so the exceptional result carries `a` unchanged. -/
def Hybrid.divEq (cap : Nat) (a b : Hybrid) : Hybrid × Option PiranhaError :=
  match Hybrid.divH cap a b with
  | .ok r => (r, none)
  | .error e => (a, some e)

/-- Modelled from the spec: in-place modulo `a %= b`, with the same
exception discipline as in-place division. -/
def Hybrid.modEq (cap : Nat) (a b : Hybrid) : Hybrid × Option PiranhaError :=
  match Hybrid.modH cap a b with
  | .ok r => (r, none)
  | .error e => (a, some e)

/-- Modelled from the spec: in-place division by a native integer divisor. -/
def Hybrid.divIntEq (cap : Nat) (a : Hybrid) (n : Int) : Hybrid × Option PiranhaError :=
  match Hybrid.divIntH cap a n with
  | .ok r => (r, none)
  | .error e => (a, some e)

/-- Modelled from the spec: in-place modulo by a native integer divisor. -/
def Hybrid.modIntEq (cap : Nat) (a : Hybrid) (n : Int) : Hybrid × Option PiranhaError :=
  match Hybrid.modIntH cap a n with
  | .ok r => (r, none)
  | .error e => (a, some e)

/-- Modelled from the spec: `pow(exponent)`.  A non-negative exponent computes
the exact power (attempting the static path first); a negative exponent on a
base of magnitude greater than one returns zero, on base `1` returns `1`, on
base `-1` returns `±1` according to the exponent's parity, and on base zero
fails with the zero-division kind. -/
def Hybrid.powH (cap : Nat) (a e : Hybrid) : Except PiranhaError Hybrid :=
  if 0 ≤ e.val then
    .ok (hybridArith cap (fun x y => x ^ y.toNat) a e)
  else if a.val = 0 then .error .zero_division
  else if a.val = 1 then .ok ⟨a.dyn, 1⟩
  else if a.val = -1 then .ok ⟨a.dyn, (-1) ^ e.val.natAbs⟩
  else .ok ⟨a.dyn, 0⟩

/-- The five binary operations covered by the static/dynamic equivalence
property. -/
inductive Op where
  | add
  | sub
  | mul
  | div
  | mod
deriving DecidableEq

/-- The result computed by the reference arbitrary-precision library for each
operation: exact integer arithmetic, with truncating division (`mpz_tdiv_q`)
and its remainder (`mpz_tdiv_r`). -/
def refOp : Op → Int → Int → Int
  | .add, a, b => a + b
  | .sub, a, b => a - b
  | .mul, a, b => a * b
  | .div, a, b => Int.tdiv a b
  | .mod, a, b => Int.tmod a b

/-- Dispatch a binary operation on hybrid integers. -/
def hybridOp (cap : Nat) : Op → Hybrid → Hybrid → Except PiranhaError Hybrid
  | .add, a, b => .ok (Hybrid.addH cap a b)
  | .sub, a, b => .ok (Hybrid.subH cap a b)
  | .mul, a, b => .ok (Hybrid.mulH cap a b)
  | .div, a, b => Hybrid.divH cap a b
  | .mod, a, b => Hybrid.modH cap a b

lemma hybridArith_val (cap : Nat) (f : Int → Int → Int) (a b : Hybrid) :
    (hybridArith cap f a b).val = f a.val b.val := by
  unfold hybridArith staticOpResult
  split
  · rfl
  · split <;> rename_i hmatch <;> first
      | rfl
      | (split at hmatch <;> simp_all)

lemma condPromote_val (p : Bool) (a : Hybrid) : (condPromote p a).val = a.val := by
  unfold condPromote Hybrid.promote
  split <;> rfl

lemma mkHybrid_val (cap : Nat) (a : Int) : (mkHybrid cap a).val = a := rfl

lemma tmod_nonpos_of_nonpos (a b : Int) (h : a ≤ 0) : Int.tmod a b ≤ 0 := by
  have h2 := Int.tmod_nonneg (a := -a) b (by omega)
  rw [Int.tmod_def, Int.neg_tdiv, mul_neg] at h2
  rw [Int.tmod_def]
  omega

/-- Claim C1: for every pair of native-representable integers `a`, `b` and
every operation in `{+, -, *, /, %}` (`b` nonzero for `/` and `%`),
`hybrid(a) op hybrid(b)` equals the result computed by the reference
arbitrary-precision library, regardless of whether either operand was
manually promoted to dynamic storage via `promote()` before the operation. -/
theorem static_dynamic_equivalence (cap : Nat) (op : Op) (a b : Int) (pa pb : Bool)
    (hb : op = Op.div ∨ op = Op.mod → b ≠ 0) :
    (hybridOp cap op (condPromote pa (mkHybrid cap a))
        (condPromote pb (mkHybrid cap b))).map Hybrid.val = Except.ok (refOp op a b) := by
  have hva : (condPromote pa (mkHybrid cap a)).val = a := by
    rw [condPromote_val, mkHybrid_val]
  have hvb : (condPromote pb (mkHybrid cap b)).val = b := by
    rw [condPromote_val, mkHybrid_val]
  cases op
  case add => simp [hybridOp, Hybrid.addH, hybridArith_val, hva, hvb, refOp, Except.map]
  case sub => simp [hybridOp, Hybrid.subH, hybridArith_val, hva, hvb, refOp, Except.map]
  case mul => simp [hybridOp, Hybrid.mulH, hybridArith_val, hva, hvb, refOp, Except.map]
  case div =>
    have hb0 : b ≠ 0 := hb (Or.inl rfl)
    simp [hybridOp, Hybrid.divH, hvb, hb0, hybridArith_val, hva, refOp, Except.map]
  case mod =>
    have hb0 : b ≠ 0 := hb (Or.inr rfl)
    simp [hybridOp, Hybrid.modH, hvb, hb0, hybridArith_val, hva, refOp, Except.map]

theorem static_dynamic_equivalence_witness :
    (hybridOp 32 Op.div (condPromote true (mkHybrid 32 7))
        (condPromote false (mkHybrid 32 (-2)))).map Hybrid.val
      = Except.ok (refOp Op.div 7 (-2)) :=
  static_dynamic_equivalence 32 Op.div 7 (-2) true false (fun _ => by decide)

/-- Claim C6: for every hybrid integer `a` and nonzero hybrid integer `b`,
division truncates toward zero (`5 / 2 = 2`, `-5 / 2 = -2`), the identity
`(a / b) * b + (a % b) = a` holds, and `a % b` shares the sign of `a` or is
zero (`5 % 2 = 1`, `-5 % 2 = -1`). -/
theorem hybrid_div_mod_truncation (cap : Nat) (a b : Hybrid) (hb : b.val ≠ 0) :
    ((Hybrid.divH 32 (mkHybrid 32 5) (mkHybrid 32 2)).map Hybrid.val = Except.ok 2)
    ∧ ((Hybrid.divH 32 (mkHybrid 32 (-5)) (mkHybrid 32 2)).map Hybrid.val = Except.ok (-2))
    ∧ ((Hybrid.modH 32 (mkHybrid 32 5) (mkHybrid 32 2)).map Hybrid.val = Except.ok 1)
    ∧ ((Hybrid.modH 32 (mkHybrid 32 (-5)) (mkHybrid 32 2)).map Hybrid.val = Except.ok (-1))
    ∧ ∃ q r : Hybrid, Hybrid.divH cap a b = Except.ok q ∧ Hybrid.modH cap a b = Except.ok r
        ∧ q.val * b.val + r.val = a.val
        ∧ (0 ≤ a.val → 0 ≤ r.val) ∧ (a.val ≤ 0 → r.val ≤ 0) := by
  refine ⟨by rfl, by rfl, by rfl, by rfl, ?_⟩
  refine ⟨hybridArith cap (fun x y => Int.tdiv x y) a b,
    hybridArith cap (fun x y => Int.tmod x y) a b, ?_, ?_, ?_, ?_, ?_⟩
  · simp [Hybrid.divH, hb]
  · simp [Hybrid.modH, hb]
  · rw [hybridArith_val, hybridArith_val, mul_comm]
    exact Int.tdiv_add_tmod a.val b.val
  · intro h
    rw [hybridArith_val]
    exact Int.tmod_nonneg _ h
  · intro h
    rw [hybridArith_val]
    exact tmod_nonpos_of_nonpos _ _ h

theorem hybrid_div_mod_truncation_witness :
    ((Hybrid.divH 32 (mkHybrid 32 5) (mkHybrid 32 2)).map Hybrid.val = Except.ok 2)
    ∧ ((Hybrid.divH 32 (mkHybrid 32 (-5)) (mkHybrid 32 2)).map Hybrid.val = Except.ok (-2))
    ∧ ((Hybrid.modH 32 (mkHybrid 32 5) (mkHybrid 32 2)).map Hybrid.val = Except.ok 1)
    ∧ ((Hybrid.modH 32 (mkHybrid 32 (-5)) (mkHybrid 32 2)).map Hybrid.val = Except.ok (-1))
    ∧ ∃ q r : Hybrid,
        Hybrid.divH 16 (mkHybrid 16 (-7)) (mkHybrid 16 3) = Except.ok q
        ∧ Hybrid.modH 16 (mkHybrid 16 (-7)) (mkHybrid 16 3) = Except.ok r
        ∧ q.val * (mkHybrid 16 3).val + r.val = (mkHybrid 16 (-7)).val
        ∧ (0 ≤ (mkHybrid 16 (-7)).val → 0 ≤ r.val)
        ∧ ((mkHybrid 16 (-7)).val ≤ 0 → r.val ≤ 0) :=
  hybrid_div_mod_truncation 16 (mkHybrid 16 (-7)) (mkHybrid 16 3) (by decide)

/-- Claim C7: the hybrid integer's `pow(exponent)`: every base to exponent 0
is 1 (including `0 ^ 0 = 1`); `2 ^ 5 = 32`, `(-3) ^ 3 = -27`; a negative
exponent on a base of magnitude greater than one returns 0; a negative
exponent on base 1 returns 1, and on base -1 (odd negative exponent) returns
-1; `pow` of base zero to a negative exponent fails with the zero-division
kind. -/
theorem hybrid_pow_spec (cap : Nat) (a e : Hybrid) (hneg : e.val < 0) :
    ((Hybrid.powH cap a (mkHybrid cap 0)).map Hybrid.val = Except.ok 1)
    ∧ ((Hybrid.powH 32 (mkHybrid 32 0) (mkHybrid 32 0)).map Hybrid.val = Except.ok 1)
    ∧ ((Hybrid.powH 32 (mkHybrid 32 2) (mkHybrid 32 5)).map Hybrid.val = Except.ok 32)
    ∧ ((Hybrid.powH 32 (mkHybrid 32 (-3)) (mkHybrid 32 3)).map Hybrid.val = Except.ok (-27))
    ∧ (1 < a.val.natAbs → (Hybrid.powH cap a e).map Hybrid.val = Except.ok 0)
    ∧ (a.val = 1 → (Hybrid.powH cap a e).map Hybrid.val = Except.ok 1)
    ∧ (a.val = -1 → Odd e.val.natAbs →
        (Hybrid.powH cap a e).map Hybrid.val = Except.ok (-1))
    ∧ (a.val = 0 → Hybrid.powH cap a e = Except.error PiranhaError.zero_division) := by
  have hne : ¬ (0 ≤ e.val) := not_le.mpr hneg
  refine ⟨?_, by rfl, by rfl, by rfl, ?_, ?_, ?_, ?_⟩
  · simp [Hybrid.powH, mkHybrid_val, hybridArith_val, Except.map]
  · intro hgt
    have h0 : ¬ (a.val = 0) := by omega
    have h1 : ¬ (a.val = 1) := by omega
    have hm1 : ¬ (a.val = -1) := by omega
    simp [Hybrid.powH, hne, h0, h1, hm1, Except.map]
  · intro h1
    simp [Hybrid.powH, hne, h1, Except.map]
  · intro hm1 hodd
    simp [Hybrid.powH, hne, hm1, Except.map, hodd.neg_one_pow]
  · intro h0
    simp [Hybrid.powH, hne, h0]

theorem hybrid_pow_spec_witness :
    ((Hybrid.powH 32 (mkHybrid 32 5) (mkHybrid 32 0)).map Hybrid.val = Except.ok 1)
    ∧ ((Hybrid.powH 32 (mkHybrid 32 0) (mkHybrid 32 0)).map Hybrid.val = Except.ok 1)
    ∧ ((Hybrid.powH 32 (mkHybrid 32 2) (mkHybrid 32 5)).map Hybrid.val = Except.ok 32)
    ∧ ((Hybrid.powH 32 (mkHybrid 32 (-3)) (mkHybrid 32 3)).map Hybrid.val = Except.ok (-27))
    ∧ (1 < (mkHybrid 32 5).val.natAbs →
        (Hybrid.powH 32 (mkHybrid 32 5) (mkHybrid 32 (-1))).map Hybrid.val = Except.ok 0)
    ∧ ((mkHybrid 32 5).val = 1 →
        (Hybrid.powH 32 (mkHybrid 32 5) (mkHybrid 32 (-1))).map Hybrid.val = Except.ok 1)
    ∧ ((mkHybrid 32 5).val = -1 → Odd (mkHybrid 32 (-1)).val.natAbs →
        (Hybrid.powH 32 (mkHybrid 32 5) (mkHybrid 32 (-1))).map Hybrid.val = Except.ok (-1))
    ∧ ((mkHybrid 32 5).val = 0 →
        Hybrid.powH 32 (mkHybrid 32 5) (mkHybrid 32 (-1))
          = Except.error PiranhaError.zero_division) :=
  hybrid_pow_spec 32 (mkHybrid 32 5) (mkHybrid 32 (-1)) (by decide)

/-- Claim C9: for every hybrid integer `a`, division or modulo by a zero
divisor — whether the divisor is a hybrid integer or a native integer zero —
fails with the zero-division error kind. -/
theorem division_by_zero_error (cap : Nat) (a b : Hybrid) (hb : b.val = 0)
    (n : Int) (hn : n = 0) :
    Hybrid.divH cap a b = Except.error PiranhaError.zero_division
    ∧ Hybrid.modH cap a b = Except.error PiranhaError.zero_division
    ∧ Hybrid.divIntH cap a n = Except.error PiranhaError.zero_division
    ∧ Hybrid.modIntH cap a n = Except.error PiranhaError.zero_division := by
  subst hn
  exact ⟨by simp [Hybrid.divH, hb], by simp [Hybrid.modH, hb],
    by simp [Hybrid.divIntH, Hybrid.divH, mkHybrid_val],
    by simp [Hybrid.modIntH, Hybrid.modH, mkHybrid_val]⟩

theorem division_by_zero_error_witness :
    Hybrid.divH 32 (mkHybrid 32 5) (mkHybrid 32 0) = Except.error PiranhaError.zero_division
    ∧ Hybrid.modH 32 (mkHybrid 32 5) (mkHybrid 32 0) = Except.error PiranhaError.zero_division
    ∧ Hybrid.divIntH 32 (mkHybrid 32 5) 0 = Except.error PiranhaError.zero_division
    ∧ Hybrid.modIntH 32 (mkHybrid 32 5) 0 = Except.error PiranhaError.zero_division :=
  division_by_zero_error 32 (mkHybrid 32 5) (mkHybrid 32 0) (by rfl) 0 (by rfl)

/-- Claim C10: when an in-place division `a /= b` or in-place modulo
`a %= b` on a hybrid integer raises the zero-division error because the
divisor is zero, the left operand `a` is left unchanged: after the exception
it still compares equal to its value before the call. -/
theorem inplace_zero_division_unchanged (cap : Nat) (a b : Hybrid) (hb : b.val = 0)
    (n : Int) (hn : n = 0) :
    Hybrid.divEq cap a b = (a, some PiranhaError.zero_division)
    ∧ Hybrid.modEq cap a b = (a, some PiranhaError.zero_division)
    ∧ Hybrid.divIntEq cap a n = (a, some PiranhaError.zero_division)
    ∧ Hybrid.modIntEq cap a n = (a, some PiranhaError.zero_division) := by
  subst hn
  exact ⟨by simp [Hybrid.divEq, Hybrid.divH, hb],
    by simp [Hybrid.modEq, Hybrid.modH, hb],
    by simp [Hybrid.divIntEq, Hybrid.divIntH, Hybrid.divH, mkHybrid_val],
    by simp [Hybrid.modIntEq, Hybrid.modIntH, Hybrid.modH, mkHybrid_val]⟩

theorem inplace_zero_division_unchanged_witness :
    Hybrid.divEq 32 (mkHybrid 32 4) (mkHybrid 32 0)
      = (mkHybrid 32 4, some PiranhaError.zero_division)
    ∧ Hybrid.modEq 32 (mkHybrid 32 4) (mkHybrid 32 0)
      = (mkHybrid 32 4, some PiranhaError.zero_division)
    ∧ Hybrid.divIntEq 32 (mkHybrid 32 4) 0
      = (mkHybrid 32 4, some PiranhaError.zero_division)
    ∧ Hybrid.modIntEq 32 (mkHybrid 32 4) 0
      = (mkHybrid 32 4, some PiranhaError.zero_division) :=
  inplace_zero_division_unchanged 32 (mkHybrid 32 4) (mkHybrid 32 0) (by rfl) 0 (by rfl)

/-! ## Hash set (embedded from `src/hash_set.hpp`)

A bucket is embedded as the list of its elements in chain order: index 0 is
the node stored inline in the bucket array slot (`list::m_node`), later
indices are the heap-allocated chain nodes.  A table is the ordered sequence
of buckets plus the running element count.  The hashing functor is a
parameter `hash`; the equality functor is decidable equality on the key
type.  Iterators are embedded as `(bucket index, position in bucket)`
pairs. -/

/-- The size-class table `hash_set::table_sizes` (64-bit mode, 41 entries). -/
def table_sizes : List Nat :=
  [0, 1, 3, 5, 11, 23, 53, 97, 193, 389, 769, 1543, 3079, 6151, 12289, 24593,
   49157, 98317, 196613, 393241, 786433, 1572869, 3145739, 6291469, 12582917,
   25165843, 50331653, 100663319, 201326611, 402653189, 805306457, 1610612741,
   3221225473, 6442450939, 12884901893, 25769803799, 51539607551, 103079215111,
   206158430209, 412316860441, 824633720831]

/-- The maximum value of `hash_set::size_type` (`std::size_t`, 64-bit). -/
def size_type_max : Nat := 2 ^ 64 - 1

/-- The hash set: an array of buckets (`m_container`) and the element count
(`m_n_elements`). -/
structure HashSet (K : Type) where
  m_container : List (List K)
  m_n_elements : Nat
deriving DecidableEq

/-- `hash_set::bucket_count()`: the number of buckets. -/
def bucket_count {K : Type} (t : HashSet K) : Nat := t.m_container.length

/-- Full-table iteration order: buckets in array order, each bucket walked
from its inline head node along the chain (`hash_set::begin()/end()`). -/
def toList {K : Type} (t : HashSet K) : List K := t.m_container.flatten

/-- The bucket at index `i` (out-of-range reads give the empty bucket). -/
def bucketAt {K : Type} (t : HashSet K) (i : Nat) : List K := t.m_container.getD i []

/-- `hash_set::_bucket(k)`: destination bucket index, `hash(k) % bucket_count()`
without the zero-bucket check. -/
def _bucket {K : Type} (hash : K → Nat) (t : HashSet K) (k : K) : Nat :=
  hash k % bucket_count t

/-- Position of the first element equal to `k` in a bucket chain. -/
def findPos {K : Type} [DecidableEq K] (k : K) : List K → Option Nat
  | [] => none
  | h :: tl => if h = k then some 0 else (findPos k tl).map (fun p => p + 1)

/-- `hash_set::_find(k, bucket_idx)`: scan the bucket at `bucket_idx` for an
element equal to `k`; the returned iterator is a (bucket, position) pair. -/
def _find {K : Type} [DecidableEq K] (t : HashSet K) (k : K) (idx : Nat) :
    Option (Nat × Nat) :=
  (findPos k (bucketAt t idx)).map (fun p => (idx, p))

/-- `hash_set::find(k)`: end iterator (`none`) on a table with no buckets,
otherwise `_find` at the destination bucket. -/
def find {K : Type} [DecidableEq K] (hash : K → Nat) (t : HashSet K) (k : K) :
    Option (Nat × Nat) :=
  if bucket_count t = 0 then none else _find t k (_bucket hash t k)

/-- `list::insert`: if the inline head node is occupied the new element
becomes the second node of the chain, otherwise it becomes the head.  Returns
the new chain and the position of the inserted node. -/
def bucketInsert {K : Type} (b : List K) (k : K) : List K × Nat :=
  match b with
  | [] => ([k], 0)
  | h :: tl => (h :: k :: tl, 1)

/-- `hash_set::_unique_insert(k, bucket_idx)`: insert without duplicate
check, count update or load-factor growth.  Returns the table and an iterator
to the inserted element. -/
def _unique_insert {K : Type} (t : HashSet K) (k : K) (idx : Nat) :
    HashSet K × (Nat × Nat) :=
  let r := bucketInsert (bucketAt t idx) k
  (⟨t.m_container.set idx r.1, t.m_n_elements⟩, (idx, r.2))

/-- `hash_set::get_size_from_hint`: the first size class at least equal to
the hint (`std::lower_bound` on the sorted size-class table); `none` models
the `std::bad_alloc` thrown when the hint exceeds every size class. -/
def get_size_from_hint (hint : Nat) : Option Nat :=
  table_sizes.find? (fun s => decide (hint ≤ s))

/-- `hash_set::get_size_index`: position of the current bucket count in the
size-class table. -/
def get_size_index {K : Type} (t : HashSet K) : Nat :=
  table_sizes.indexOf (bucket_count t)

/-- The size class following `bc` in the size-class table. -/
def next_size (bc : Nat) : Nat := table_sizes.getD (table_sizes.indexOf bc + 1) 0

/-- One step of the rehash loop: place element `k` into the bucket computed
from the new table's bucket count (`new_table._bucket`), via the bucket-list
insert. -/
def placeOne {K : Type} (hash : K → Nat) (c : List (List K)) (k : K) :
    List (List K) :=
  c.set (hash k % c.length) (bucketInsert (c.getD (hash k % c.length) []) k).1

/-- The rehash loop: move every element, in iteration order, into a fresh
bucket array of `sz` empty buckets using the unchecked unique-insert path. -/
def distribute {K : Type} (hash : K → Nat) (elems : List K) (sz : Nat) :
    List (List K) :=
  elems.foldl (placeOne hash) (List.replicate sz ([] : List K))

/-- `hash_set::rehash(new_size)`: build a fresh table whose bucket count is
the size class of `new_size` (error on size-class overflow), move-insert
every element via the unchecked path, and keep the element count. -/
def rehash {K : Type} (hash : K → Nat) (t : HashSet K) (new_size : Nat) :
    Except PiranhaError (HashSet K) :=
  match get_size_from_hint new_size with
  | none => .error .bad_alloc
  | some sz => .ok ⟨distribute hash (toList t) sz, t.m_n_elements⟩

/-- `hash_set::_increase_size()`: grow to the next size class, failing with an
allocation error when the table is already at the largest size class. -/
def _increase_size {K : Type} (hash : K → Nat) (t : HashSet K) :
    Except PiranhaError (HashSet K) :=
  let i := get_size_index t
  if i = table_sizes.length - 1 then .error .bad_alloc
  else rehash hash t (table_sizes.getD (i + 1) 0)

/-- `hash_set::insert(k)`, following the source's order of operations:
zero-bucket growth, duplicate lookup in the destination bucket, element-count
overflow check, load-factor check `(count + 1) / bucket_count() > 1` (with
growth and destination recomputation), then placement and count increment.
The exact floating-point comparison in the source,
`(double)(m_n_elements + 1) / bucket_count() > 1.0`, is embedded as the
equivalent exact comparison `m_n_elements + 1 > bucket_count`.
`insert_core` is the part of `insert` after the zero-bucket handling. -/
def insert_core {K : Type} [DecidableEq K] (hash : K → Nat) (t0 : HashSet K) (k : K) :
    Except PiranhaError (HashSet K × (Nat × Nat) × Bool) :=
  match _find t0 k (_bucket hash t0 k) with
  | some it => .ok (t0, it, false)
  | none =>
    if t0.m_n_elements = size_type_max then .error .overflow
    else
      match (if t0.m_n_elements + 1 > bucket_count t0 then
               (_increase_size hash t0).map (fun t1 => (t1, _bucket hash t1 k))
             else .ok (t0, _bucket hash t0 k)) with
      | .error e => .error e
      | .ok r1 =>
        let r2 := _unique_insert r1.1 k r1.2
        .ok (⟨r2.1.m_container, r2.1.m_n_elements + 1⟩, r2.2, true)

def insert {K : Type} [DecidableEq K] (hash : K → Nat) (t : HashSet K) (k : K) :
    Except PiranhaError (HashSet K × (Nat × Nat) × Bool) :=
  match (if bucket_count t = 0 then _increase_size hash t else .ok t) with
  | .error e => .error e
  | .ok t0 => insert_core hash t0 k

/-- `hash_set::_erase(it)` at the bucket level: remove the element at
position `pos` of bucket `idx`.  Erasing the head of a chain with a successor
move-constructs the second node's payload into the inline head slot and
deallocates the second node, so at the element level the chain simply loses
its first entry; the bucket array slot itself always remains. -/
def _erase {K : Type} (t : HashSet K) (idx pos : Nat) : HashSet K :=
  ⟨t.m_container.set idx ((bucketAt t idx).eraseIdx pos), t.m_n_elements⟩

/-- `hash_set::erase(it)`: `_erase` followed by the count decrement. -/
def erase {K : Type} (t : HashSet K) (idx pos : Nat) : HashSet K :=
  ⟨(_erase t idx pos).m_container, t.m_n_elements - 1⟩

/-- `hash_set::clear()`: zero buckets, zero elements. -/
def clear {K : Type} (_t : HashSet K) : HashSet K := ⟨[], 0⟩

/-- The empty table. -/
def emptyTable {K : Type} : HashSet K := ⟨[], 0⟩

/-! ### Rehash under a throwing element move

`rehash` move-inserts each element; in the source the element's move
constructor (and node allocation) may throw, and the `catch` block then runs
`clear(); new_table.clear(); throw;`.  To state the exception guarantee we
re-embed `rehash` with an explicit fallible move `mv` and record, for a
throwing run, the states in which the two tables are left. -/

/-- Outcome of a `rehash` whose element moves may throw: an allocation
failure from the new table's constructor (before the move loop), an exception
from the move-insert loop (recording the states of the original table and of
the new table after the catch block ran), or success. -/
inductive RehashOutcome (K E : Type) where
  | allocFail
  | thrown (e : E) (this_after : HashSet K) (new_after : HashSet K)
  | success (t2 : HashSet K)
deriving DecidableEq

/-- The move-insert loop of `rehash` with a fallible move `mv`: on failure it
reports the error together with the half-built bucket array. -/
def moveLoop {K E : Type} (hash : K → Nat) (mv : K → Except E K) :
    List K → List (List K) → Except (E × List (List K)) (List (List K))
  | [], acc => .ok acc
  | k :: rest, acc =>
    match mv k with
    | .error e => .error (e, acc)
    | .ok k2 => moveLoop hash mv rest (placeOne hash acc k2)

/-- `hash_set::rehash(new_size)` with a fallible element move: on an
exception from the move-insert loop the catch block clears both the original
table and the half-built new table before rethrowing. -/
def rehash_exc {K E : Type} (hash : K → Nat) (mv : K → Except E K)
    (t : HashSet K) (new_size : Nat) : RehashOutcome K E :=
  match get_size_from_hint new_size with
  | none => .allocFail
  | some sz =>
    match moveLoop hash mv (toList t) (List.replicate sz ([] : List K)) with
    | .error r => .thrown r.1 (clear t) (clear ⟨r.2, 0⟩)
    | .ok c2 => .success ⟨c2, t.m_n_elements⟩

/-- `hash_set::_increase_size()` with a fallible element move — the rehash
triggered by `insert`'s growth path. -/
def _increase_size_exc {K E : Type} (hash : K → Nat) (mv : K → Except E K)
    (t : HashSet K) : RehashOutcome K E :=
  let i := get_size_index t
  if i = table_sizes.length - 1 then .allocFail
  else rehash_exc hash mv t (table_sizes.getD (i + 1) 0)

lemma rehash_exc_thrown_empty {K E : Type} {hash : K → Nat} {mv : K → Except E K}
    {t : HashSet K} {new_size : Nat} {e : E} {ta na : HashSet K}
    (h : rehash_exc hash mv t new_size = .thrown e ta na) :
    ta = emptyTable ∧ na = emptyTable := by
  unfold rehash_exc at h
  split at h
  · exact absurd h (by simp)
  · split at h
    · rw [RehashOutcome.thrown.injEq] at h
      exact ⟨h.2.1.symm, h.2.2.symm⟩
    · exact absurd h (by simp)

lemma increase_size_exc_thrown_empty {K E : Type} {hash : K → Nat}
    {mv : K → Except E K} {t : HashSet K} {e : E} {ta na : HashSet K}
    (h : _increase_size_exc hash mv t = .thrown e ta na) :
    ta = emptyTable ∧ na = emptyTable := by
  simp only [_increase_size_exc] at h
  split at h
  · exact absurd h (by simp)
  · exact rehash_exc_thrown_empty h

/-- Claim C4: if any exception propagates from the element move-insert loop
during `rehash` (including the rehashes triggered by `insert`'s growth path
through `_increase_size`), both the original table and the half-built new
table are emptied before the exception propagates: a failing
insertion-driven operation leaves the table either in its prior consistent
state or empty, never partially populated. -/
theorem rehash_weak_exception_guarantee {K E : Type} (hash : K → Nat)
    (mv : K → Except E K) (t : HashSet K) (new_size : Nat) (e : E)
    (ta na : HashSet K) :
    (rehash_exc hash mv t new_size = .thrown e ta na →
      ta = emptyTable ∧ na = emptyTable)
    ∧ (_increase_size_exc hash mv t = .thrown e ta na →
      ta = emptyTable ∧ na = emptyTable) :=
  ⟨fun h => rehash_exc_thrown_empty h, fun h => increase_size_exc_thrown_empty h⟩

theorem rehash_weak_exception_guarantee_witness :
    ((emptyTable : HashSet Nat) = emptyTable ∧ (emptyTable : HashSet Nat) = emptyTable)
    ∧ ((emptyTable : HashSet Nat) = emptyTable ∧ (emptyTable : HashSet Nat) = emptyTable) :=
  ⟨(rehash_weak_exception_guarantee (fun k => k) (fun _ => Except.error ())
      (⟨[[7]], 1⟩ : HashSet Nat) 1 () emptyTable emptyTable).1 (by rfl),
   (rehash_weak_exception_guarantee (fun k => k) (fun _ => Except.error ())
      (⟨[[7]], 1⟩ : HashSet Nat) 1 () emptyTable emptyTable).2 (by rfl)⟩

lemma getD_set_self {α : Type _} (l : List α) (i : Nat) (a d : α)
    (h : i < l.length) : (l.set i a).getD i d = a := by
  rw [List.getD_eq_getElem _ _ (by simpa using h)]
  exact List.getElem_set_self _

lemma getD_set_ne {α : Type _} (l : List α) (i j : Nat) (a d : α)
    (h : i ≠ j) : (l.set i a).getD j d = l.getD j d := by
  by_cases hj : j < l.length
  · rw [List.getD_eq_getElem _ _ (by simpa using hj), List.getD_eq_getElem _ _ hj]
    exact List.getElem_set_ne h _
  · rw [List.getD_eq_default _ _ (by simpa using Nat.le_of_not_lt hj),
      List.getD_eq_default _ _ (Nat.le_of_not_lt hj)]

lemma bucketAt_in_range {K : Type} {t : HashSet K} {i : Nat} {b : List K}
    (hb : bucketAt t i = b) (hne : b ≠ []) : i < bucket_count t := by
  by_contra hlt
  rw [bucketAt, List.getD_eq_default _ _ (Nat.le_of_not_lt hlt)] at hb
  exact hne hb.symm

/-! ### Structural facts about the size-class table -/

lemma table_sizes_sorted : table_sizes.Pairwise (fun a b => a < b) := by decide

lemma size_from_hint_self : ∀ s ∈ table_sizes, get_size_from_hint s = some s := by decide

lemma indexOf_ne_last : ∀ s ∈ table_sizes, s < 824633720831 →
    table_sizes.indexOf s ≠ table_sizes.length - 1 := by decide

lemma next_size_mem : ∀ s ∈ table_sizes, s < 824633720831 →
    next_size s ∈ table_sizes ∧ s < next_size s := by decide

lemma table_sizes_le_max : ∀ s ∈ table_sizes, s ≤ 824633720831 := by decide

lemma find_ge_sorted_min (hint : Nat) :
    ∀ (l : List Nat), l.Pairwise (fun a b => a < b) →
      ∀ s, l.find? (fun x => decide (hint ≤ x)) = some s →
        s ∈ l ∧ hint ≤ s ∧ ∀ s2 ∈ l, hint ≤ s2 → s ≤ s2 := by
  intro l
  induction l with
  | nil => intro _ s h; exact absurd h (by simp)
  | cons x xs ih =>
    intro hl s h
    by_cases hx : hint ≤ x
    · rw [List.find?_cons] at h
      simp only [decide_eq_true hx] at h
      have hsx : s = x := by
        have := h
        simp at this
        exact this.symm
      subst hsx
      refine ⟨List.mem_cons_self _ _, hx, ?_⟩
      intro s2 hs2 _
      rcases List.mem_cons.mp hs2 with h2 | h2
      · exact le_of_eq h2.symm
      · exact le_of_lt (List.rel_of_pairwise_cons hl h2)
    · rw [List.find?_cons] at h
      simp only [decide_eq_false hx] at h
      have := ih hl.of_cons s h
      refine ⟨List.mem_cons_of_mem _ this.1, this.2.1, ?_⟩
      intro s2 hs2 hhs2
      rcases List.mem_cons.mp hs2 with h2 | h2
      · exact absurd (h2 ▸ hhs2) hx
      · exact this.2.2 s2 h2 hhs2

lemma get_size_from_hint_spec {hint sz : Nat} (h : get_size_from_hint hint = some sz) :
    sz ∈ table_sizes ∧ hint ≤ sz ∧ ∀ s2 ∈ table_sizes, hint ≤ s2 → sz ≤ s2 :=
  find_ge_sorted_min hint table_sizes table_sizes_sorted sz h

/-! ### The rehash loop distributes elements without loss -/

lemma bucketInsert_perm {K : Type} (b : List K) (k : K) :
    (bucketInsert b k).1.Perm (k :: b) := by
  cases b with
  | nil => exact List.Perm.refl _
  | cons h tl => exact List.Perm.swap k h tl

lemma bucketInsert_mem {K : Type} (b : List K) (k x : K) :
    x ∈ (bucketInsert b k).1 ↔ x = k ∨ x ∈ b := by
  rw [(bucketInsert_perm b k).mem_iff, List.mem_cons]

lemma flatten_set_perm {K : Type} (k : K) :
    ∀ (c : List (List K)) (i : Nat) (b : List K), i < c.length →
      b.Perm (k :: c.getD i []) → (c.set i b).flatten.Perm (k :: c.flatten) := by
  intro c
  induction c with
  | nil => intro i b hi; exact absurd hi (by simp)
  | cons x xs ih =>
    intro i b hi hb
    cases i with
    | zero =>
      rw [List.getD_cons_zero] at hb
      show (b ++ xs.flatten).Perm (k :: (x ++ xs.flatten))
      exact hb.append_right xs.flatten
    | succ j =>
      rw [List.getD_cons_succ] at hb
      have hj : j < xs.length := by simpa using hi
      have hperm := ih j b hj hb
      show (x ++ (xs.set j b).flatten).Perm (k :: (x ++ xs.flatten))
      exact (hperm.append_left x).trans List.perm_middle

lemma placeOne_length {K : Type} (hash : K → Nat) (c : List (List K)) (k : K) :
    (placeOne hash c k).length = c.length := List.length_set _ _ _

lemma placeOne_flatten_perm {K : Type} (hash : K → Nat) (c : List (List K)) (k : K)
    (hc : 0 < c.length) : (placeOne hash c k).flatten.Perm (k :: c.flatten) :=
  flatten_set_perm k c _ _ (Nat.mod_lt _ hc) (bucketInsert_perm _ k)

lemma foldl_placeOne_length {K : Type} (hash : K → Nat) :
    ∀ (elems : List K) (acc : List (List K)),
      (elems.foldl (placeOne hash) acc).length = acc.length := by
  intro elems
  induction elems with
  | nil => intro acc; rfl
  | cons k rest ih =>
    intro acc
    rw [List.foldl_cons, ih, placeOne_length]

lemma foldl_placeOne_perm {K : Type} (hash : K → Nat) :
    ∀ (elems : List K) (acc : List (List K)), 0 < acc.length →
      (elems.foldl (placeOne hash) acc).flatten.Perm (elems ++ acc.flatten) := by
  intro elems
  induction elems with
  | nil => intro acc _; exact List.Perm.refl _
  | cons k rest ih =>
    intro acc h
    have h2 : 0 < (placeOne hash acc k).length := by rw [placeOne_length]; exact h
    have hstep := placeOne_flatten_perm hash acc k h
    rw [List.foldl_cons]
    refine (ih (placeOne hash acc k) h2).trans ?_
    exact (hstep.append_left rest).trans List.perm_middle

lemma flatten_replicate_nil {K : Type} : ∀ n : Nat,
    (List.replicate n ([] : List K)).flatten = [] := by
  intro n
  induction n with
  | zero => rfl
  | succ m ih => rw [List.replicate_succ, List.flatten_cons, List.nil_append, ih]

lemma distribute_perm {K : Type} (hash : K → Nat) (elems : List K) (sz : Nat)
    (h : 0 < sz) : (distribute hash elems sz).flatten.Perm elems := by
  have := foldl_placeOne_perm hash elems (List.replicate sz []) (by simpa using h)
  rw [flatten_replicate_nil, List.append_nil] at this
  exact this

lemma distribute_length {K : Type} (hash : K → Nat) (elems : List K) (sz : Nat) :
    (distribute hash elems sz).length = sz := by
  rw [distribute, foldl_placeOne_length, List.length_replicate]

/-! ### The bucket-placement invariant -/

/-- Every element of every bucket hashes to the index of the bucket that
holds it (invariant (a) of `hash_set::sanity_check`). -/
def bucketInv {K : Type} (hash : K → Nat) (c : List (List K)) : Prop :=
  ∀ i : Nat, ∀ x ∈ c.getD i [], hash x % c.length = i

lemma bucketInv_placeOne {K : Type} (hash : K → Nat) (c : List (List K)) (k : K)
    (hc : 0 < c.length) (hinv : bucketInv hash c) :
    bucketInv hash (placeOne hash c k) := by
  intro i x hx
  rw [placeOne_length]
  by_cases hik : i = hash k % c.length
  · subst hik
    rw [placeOne, getD_set_self _ _ _ _ (Nat.mod_lt _ hc)] at hx
    rcases (bucketInsert_mem _ _ _).mp hx with h | h
    · subst h; rfl
    · exact hinv _ x h
  · rw [placeOne, getD_set_ne _ _ _ _ _ (fun he => hik he.symm)] at hx
    exact hinv _ x hx

lemma bucketInv_replicate_nil {K : Type} (hash : K → Nat) (n : Nat) :
    bucketInv hash (List.replicate n ([] : List K)) := by
  intro i x hx
  exfalso
  by_cases hi : i < n
  · rw [List.getD_eq_getElem _ _ (by simpa using hi), List.getElem_replicate] at hx
    exact absurd hx (List.not_mem_nil x)
  · rw [List.getD_eq_default _ _ (by simpa using Nat.le_of_not_lt hi)] at hx
    exact absurd hx (List.not_mem_nil x)

lemma bucketInv_foldl {K : Type} (hash : K → Nat) :
    ∀ (elems : List K) (acc : List (List K)), 0 < acc.length →
      bucketInv hash acc → bucketInv hash (elems.foldl (placeOne hash) acc) := by
  intro elems
  induction elems with
  | nil => intro acc _ hinv; exact hinv
  | cons k rest ih =>
    intro acc hlen hinv
    rw [List.foldl_cons]
    exact ih _ (by rw [placeOne_length]; exact hlen)
      (bucketInv_placeOne hash acc k hlen hinv)

lemma bucketInv_distribute {K : Type} (hash : K → Nat) (elems : List K) (sz : Nat)
    (h : 0 < sz) : bucketInv hash (distribute hash elems sz) :=
  bucketInv_foldl hash elems _ (by simpa using h) (bucketInv_replicate_nil hash sz)

/-! ### Well-formedness of a table

The invariants of `hash_set::sanity_check`: every element lives in the bucket
computed from its hash, the element count matches the actual content, the
bucket count is a size-class value, and (from the class invariant) keys are
unique. -/

structure WF {K : Type} (hash : K → Nat) (t : HashSet K) : Prop where
  size_class : bucket_count t ∈ table_sizes
  count_eq : t.m_n_elements = (toList t).length
  buckets_ok : bucketInv hash t.m_container
  nodup : (toList t).Nodup

lemma WF_emptyTable {K : Type} (hash : K → Nat) : WF hash (emptyTable : HashSet K) :=
  ⟨by show (0 : Nat) ∈ table_sizes; decide, rfl,
   fun _ x hx => absurd hx (List.not_mem_nil x), List.nodup_nil⟩

lemma findPos_none_iff {K : Type} [DecidableEq K] (k : K) :
    ∀ b : List K, findPos k b = none ↔ k ∉ b := by
  intro b
  induction b with
  | nil => simp [findPos]
  | cons h tl ih =>
    by_cases hk : h = k
    · subst hk
      simp [findPos]
    · rw [findPos]
      simp only [if_neg hk, Option.map_eq_none', ih, List.mem_cons]
      constructor
      · intro hn hor
        rcases hor with ho | ho
        · exact hk ho.symm
        · exact hn ho
      · intro hn hmem
        exact hn (Or.inr hmem)

lemma findPos_some_get {K : Type} [DecidableEq K] (k : K) :
    ∀ (b : List K) (p : Nat), findPos k b = some p → b[p]? = some k := by
  intro b
  induction b with
  | nil => intro p hp; exact absurd hp (by simp [findPos])
  | cons h tl ih =>
    intro p hp
    rw [findPos] at hp
    by_cases hk : h = k
    · rw [if_pos hk] at hp
      have hp0 : p = 0 := by
        have := Option.some.injEq 0 p ▸ hp
        simpa using this.symm
      subst hp0
      simpa using hk
    · rw [if_neg hk] at hp
      rcases Option.map_eq_some'.mp hp with ⟨q, hq, hqp⟩
      subst hqp
      simpa using ih q hq

lemma mem_bucketAt_of_mem_toList {K : Type} {hash : K → Nat} {t : HashSet K}
    (hinv : bucketInv hash t.m_container) {k : K} (hk : k ∈ toList t) :
    k ∈ bucketAt t (hash k % bucket_count t) := by
  obtain ⟨b, hb, hkb⟩ := List.mem_flatten.mp hk
  obtain ⟨j, hj, rfl⟩ := List.mem_iff_getElem.mp hb
  have hmem : k ∈ t.m_container.getD j [] := by
    rw [List.getD_eq_getElem _ _ hj]
    exact hkb
  have hidx := hinv j k hmem
  show k ∈ t.m_container.getD (hash k % t.m_container.length) []
  rw [hidx]
  exact hmem

lemma mem_toList_of_mem_bucketAt {K : Type} {t : HashSet K} {i : Nat} {k : K}
    (hi : i < bucket_count t) (hk : k ∈ bucketAt t i) : k ∈ toList t := by
  rw [bucketAt, List.getD_eq_getElem _ _ hi] at hk
  exact List.mem_flatten.mpr ⟨_, List.getElem_mem hi, hk⟩

lemma mem_toList_iff_bucket {K : Type} {hash : K → Nat} {t : HashSet K}
    (hinv : bucketInv hash t.m_container) (hbc : 0 < bucket_count t) (k : K) :
    k ∈ toList t ↔ k ∈ bucketAt t (hash k % bucket_count t) :=
  ⟨fun h => mem_bucketAt_of_mem_toList hinv h,
   fun h => mem_toList_of_mem_bucketAt (Nat.mod_lt _ hbc) h⟩

lemma _find_none_iff {K : Type} [DecidableEq K] {hash : K → Nat} {t : HashSet K}
    (hinv : bucketInv hash t.m_container) (hbc : 0 < bucket_count t) (k : K) :
    _find t k (_bucket hash t k) = none ↔ k ∉ toList t := by
  rw [_find, Option.map_eq_none', findPos_none_iff, _bucket]
  exact not_congr (mem_toList_iff_bucket hinv hbc k).symm

/-! ### Rehash and growth -/

lemma WF_distribute {K : Type} (hash : K → Nat) (t : HashSet K) (sz : Nat)
    (hwf : WF hash t) (hsz : 0 < sz) (hmem : sz ∈ table_sizes) :
    WF hash (⟨distribute hash (toList t) sz, t.m_n_elements⟩ : HashSet K) := by
  have hperm := distribute_perm hash (toList t) sz hsz
  refine ⟨?_, ?_, ?_, ?_⟩
  · show (distribute hash (toList t) sz).length ∈ table_sizes
    rw [distribute_length]
    exact hmem
  · show t.m_n_elements = (distribute hash (toList t) sz).flatten.length
    rw [hperm.length_eq, hwf.count_eq]
  · exact bucketInv_distribute hash (toList t) sz hsz
  · exact hperm.symm.nodup hwf.nodup

lemma increase_size_ok {K : Type} (hash : K → Nat) (t : HashSet K)
    (hwf : WF hash t) (hlt : bucket_count t < 824633720831) :
    ∃ t1, _increase_size hash t = .ok t1
      ∧ t1.m_container = distribute hash (toList t) (next_size (bucket_count t))
      ∧ t1.m_n_elements = t.m_n_elements
      ∧ bucket_count t1 = next_size (bucket_count t)
      ∧ bucket_count t < bucket_count t1
      ∧ WF hash t1
      ∧ (toList t1).Perm (toList t) := by
  have hmem := hwf.size_class
  have hne := indexOf_ne_last _ hmem hlt
  have hnext := next_size_mem _ hmem hlt
  have hpos : 0 < next_size (bucket_count t) := Nat.lt_of_le_of_lt (Nat.zero_le _) hnext.2
  have hg : get_size_from_hint (table_sizes.getD (table_sizes.indexOf (bucket_count t) + 1) 0)
      = some (next_size (bucket_count t)) := size_from_hint_self _ hnext.1
  have hperm := distribute_perm hash (toList t) (next_size (bucket_count t)) hpos
  refine ⟨⟨distribute hash (toList t) (next_size (bucket_count t)), t.m_n_elements⟩,
    ?_, rfl, rfl, ?_, ?_, ?_, hperm⟩
  · simp only [_increase_size, get_size_index]
    rw [if_neg hne, rehash, hg]
  · show (distribute hash (toList t) (next_size (bucket_count t))).length = _
    rw [distribute_length]
  · show bucket_count t < (distribute hash (toList t) (next_size (bucket_count t))).length
    rw [distribute_length]
    exact hnext.2
  · exact WF_distribute hash t _ hwf hpos hnext.1

lemma place_step {K : Type} [DecidableEq K] (hash : K → Nat) (t1 : HashSet K) (k : K)
    (hwf : WF hash t1) (hbc : 0 < bucket_count t1) (hk : k ∉ toList t1) :
    WF hash (⟨placeOne hash t1.m_container k, t1.m_n_elements + 1⟩ : HashSet K)
    ∧ (toList (⟨placeOne hash t1.m_container k, t1.m_n_elements + 1⟩ : HashSet K)).Perm
        (k :: toList t1)
    ∧ bucket_count (⟨placeOne hash t1.m_container k, t1.m_n_elements + 1⟩ : HashSet K)
        = bucket_count t1
    ∧ k ∈ bucketAt (⟨placeOne hash t1.m_container k, t1.m_n_elements + 1⟩ : HashSet K)
        (hash k % bucket_count t1) := by
  have hperm := placeOne_flatten_perm hash t1.m_container k hbc
  have hnodup : (k :: toList t1).Nodup := List.nodup_cons.mpr ⟨hk, hwf.nodup⟩
  refine ⟨⟨?_, ?_, ?_, ?_⟩, hperm, placeOne_length hash _ k, ?_⟩
  · show (placeOne hash t1.m_container k).length ∈ table_sizes
    rw [placeOne_length]
    exact hwf.size_class
  · show t1.m_n_elements + 1 = (placeOne hash t1.m_container k).flatten.length
    rw [hperm.length_eq, List.length_cons, hwf.count_eq]
    rfl
  · exact bucketInv_placeOne hash t1.m_container k hbc hwf.buckets_ok
  · exact hperm.symm.nodup hnodup
  · show k ∈ (placeOne hash t1.m_container k).getD (hash k % t1.m_container.length) []
    rw [placeOne, getD_set_self _ _ _ _ (Nat.mod_lt _ hbc)]
    exact (bucketInsert_mem _ _ _).mpr (Or.inl rfl)

/-! ### Behavior of `insert` -/

lemma insert_of_bc_pos {K : Type} [DecidableEq K] (hash : K → Nat) (t : HashSet K)
    (k : K) (hbc : ¬ bucket_count t = 0) : insert hash t k = insert_core hash t k := by
  unfold insert
  rw [if_neg hbc]

lemma insert_of_bc_zero {K : Type} [DecidableEq K] (hash : K → Nat) (t t0 : HashSet K)
    (k : K) (hbc : bucket_count t = 0) (hinc : _increase_size hash t = .ok t0) :
    insert hash t k = insert_core hash t0 k := by
  unfold insert
  rw [if_pos hbc, hinc]

lemma insert_core_found {K : Type} [DecidableEq K] (hash : K → Nat) (t0 : HashSet K)
    (k : K) (it : Nat × Nat) (hfind : _find t0 k (_bucket hash t0 k) = some it) :
    insert_core hash t0 k = .ok (t0, it, false) := by
  unfold insert_core
  rw [hfind]

lemma insert_core_new {K : Type} [DecidableEq K] (hash : K → Nat) (t0 : HashSet K)
    (k : K) (hwf : WF hash t0) (hbc : 0 < bucket_count t0) (hk : k ∉ toList t0)
    (hcap : t0.m_n_elements + 1 ≤ 824633720831) :
    ∃ t2 pos, insert_core hash t0 k = .ok (t2, pos, true)
      ∧ WF hash t2
      ∧ (toList t2).Perm (k :: toList t0)
      ∧ bucket_count t2 = (if t0.m_n_elements + 1 > bucket_count t0
          then next_size (bucket_count t0) else bucket_count t0)
      ∧ pos.1 = hash k % bucket_count t2
      ∧ k ∈ bucketAt t2 pos.1
      ∧ t2.m_n_elements = t0.m_n_elements + 1 := by
  have hfind : _find t0 k (_bucket hash t0 k) = none :=
    (_find_none_iff hwf.buckets_ok hbc k).mpr hk
  have hmax : ¬ t0.m_n_elements = size_type_max := by
    have h2 : size_type_max = 18446744073709551615 := by rw [size_type_max]; norm_num
    rw [h2]
    omega
  unfold insert_core
  rw [hfind, if_neg hmax]
  by_cases htr : t0.m_n_elements + 1 > bucket_count t0
  · have hblt : bucket_count t0 < 824633720831 := by omega
    obtain ⟨t1, hinc, _, hn1, hbc1, _, hwf1, hperm1⟩ :=
      increase_size_ok hash t0 hwf hblt
    have hbc1pos : 0 < bucket_count t1 := by
      rw [hbc1]
      exact Nat.lt_of_le_of_lt (Nat.zero_le _) (next_size_mem _ hwf.size_class hblt).2
    have hk1 : k ∉ toList t1 := fun h => hk (hperm1.mem_iff.mp h)
    obtain ⟨hwf2, hperm2, hbceq, hmem2⟩ := place_step hash t1 k hwf1 hbc1pos hk1
    rw [if_pos htr, hinc]
    refine ⟨⟨placeOne hash t1.m_container k, t1.m_n_elements + 1⟩,
      (_bucket hash t1 k, (bucketInsert (bucketAt t1 (_bucket hash t1 k)) k).2),
      rfl, hwf2, ?_, ?_, ?_, ?_, ?_⟩
    · exact hperm2.trans (hperm1.cons k)
    · rw [if_pos htr]
      show (placeOne hash t1.m_container k).length = next_size (bucket_count t0)
      rw [placeOne_length]
      exact hbc1
    · show _bucket hash t1 k = hash k % (placeOne hash t1.m_container k).length
      rw [placeOne_length]
      rfl
    · exact hmem2
    · show t1.m_n_elements + 1 = t0.m_n_elements + 1
      rw [hn1]
  · obtain ⟨hwf2, hperm2, hbceq, hmem2⟩ := place_step hash t0 k hwf hbc hk
    rw [if_neg htr]
    refine ⟨⟨placeOne hash t0.m_container k, t0.m_n_elements + 1⟩,
      (_bucket hash t0 k, (bucketInsert (bucketAt t0 (_bucket hash t0 k)) k).2),
      rfl, hwf2, hperm2, ?_, ?_, hmem2, rfl⟩
    · rw [if_neg htr]
      show (placeOne hash t0.m_container k).length = bucket_count t0
      rw [placeOne_length]
      rfl
    · show _bucket hash t0 k = hash k % (placeOne hash t0.m_container k).length
      rw [placeOne_length]
      rfl

lemma insert_main {K : Type} [DecidableEq K] (hash : K → Nat) (t : HashSet K) (k : K)
    (hwf : WF hash t) (hk : k ∉ toList t) (hcap : t.m_n_elements + 1 ≤ 824633720831) :
    ∃ t2 pos, insert hash t k = .ok (t2, pos, true)
      ∧ WF hash t2
      ∧ (toList t2).Perm (k :: toList t)
      ∧ bucket_count t2 = (if bucket_count t = 0 then 1
          else if t.m_n_elements + 1 > bucket_count t then next_size (bucket_count t)
          else bucket_count t)
      ∧ pos.1 = hash k % bucket_count t2
      ∧ k ∈ bucketAt t2 pos.1
      ∧ t2.m_n_elements = t.m_n_elements + 1 := by
  by_cases hbc : bucket_count t = 0
  · have hcont : t.m_container = [] := List.length_eq_zero.mp hbc
    have htl : toList t = [] := by rw [toList, hcont]; rfl
    have hn : t.m_n_elements = 0 := by rw [hwf.count_eq, htl]; rfl
    obtain ⟨t1, hinc, _, hn1, hbc1, _, hwf1, hperm1⟩ :=
      increase_size_ok hash t hwf (by rw [hbc]; norm_num)
    have hns : next_size 0 = 1 := by decide
    have hbc1e : bucket_count t1 = 1 := by rw [hbc1, hbc, hns]
    have htl1 : toList t1 = [] := by
      have := hperm1
      rw [htl] at this
      exact this.eq_nil
    rw [insert_of_bc_zero hash t t1 k hbc hinc]
    obtain ⟨t2, pos, hrun, hwf2, hperm2, hbc2, hpos, hmem, hn2⟩ :=
      insert_core_new hash t1 k hwf1 (by rw [hbc1e]; norm_num)
        (by rw [htl1]; exact List.not_mem_nil k)
        (by rw [hn1, hn]; norm_num)
    refine ⟨t2, pos, hrun, hwf2, ?_, ?_, hpos, hmem, ?_⟩
    · rw [htl1] at hperm2
      rw [htl]
      exact hperm2
    · rw [if_pos hbc, hbc2, hbc1e, hn1, hn]
      norm_num
    · rw [hn2, hn1]
  · rw [insert_of_bc_pos hash t k hbc]
    obtain ⟨t2, pos, hrun, hwf2, hperm2, hbc2, hpos, hmem, hn2⟩ :=
      insert_core_new hash t k hwf (Nat.pos_of_ne_zero hbc) hk hcap
    exact ⟨t2, pos, hrun, hwf2, hperm2, by rw [if_neg hbc]; exact hbc2, hpos, hmem, hn2⟩

lemma _find_some_of_mem {K : Type} [DecidableEq K] {hash : K → Nat} {t : HashSet K}
    (hinv : bucketInv hash t.m_container) (hbc : 0 < bucket_count t) {k : K}
    (hk : k ∈ toList t) : ∃ it, _find t k (_bucket hash t k) = some it := by
  cases hf : _find t k (_bucket hash t k) with
  | some it => exact ⟨it, rfl⟩
  | none => exact absurd ((_find_none_iff hinv hbc k).mp hf) (not_not_intro hk)

lemma find_some_insert {K : Type} [DecidableEq K] (hash : K → Nat) (t : HashSet K)
    (k : K) (it : Nat × Nat) (hfound : find hash t k = some it) :
    insert hash t k = .ok (t, it, false)
    ∧ it.1 = _bucket hash t k ∧ (bucketAt t it.1)[it.2]? = some k := by
  have hbc : ¬ bucket_count t = 0 := by
    intro h
    rw [find, if_pos h] at hfound
    exact absurd hfound (by simp)
  rw [find, if_neg hbc] at hfound
  rcases Option.map_eq_some'.mp hfound with ⟨p, hp, hit⟩
  refine ⟨?_, ?_, ?_⟩
  · rw [insert_of_bc_pos hash t k hbc]
    exact insert_core_found hash t k it hfound
  · rw [← hit]
  · rw [← hit]
    exact findPos_some_get k _ p hp

/-- One call of `insert`, keeping the resulting table (the state of `*this`
after the call; an exception leaves the table of the model unchanged). -/
def insertStep {K : Type} [DecidableEq K] (hash : K → Nat) (t : HashSet K) (k : K) :
    HashSet K :=
  match insert hash t k with
  | .ok r => r.1
  | .error _ => t

/-- A sequence of `insert` calls starting from a default-constructed table. -/
def insertSeq {K : Type} [DecidableEq K] (hash : K → Nat) (ks : List K) : HashSet K :=
  ks.foldl (insertStep hash) emptyTable

lemma insertStep_mem {K : Type} [DecidableEq K] (hash : K → Nat) (t : HashSet K)
    (k : K) (hwf : WF hash t) (hk : k ∈ toList t) : insertStep hash t k = t := by
  have hbc : 0 < bucket_count t := by
    by_contra h
    have h0 : t.m_container = [] :=
      List.length_eq_zero.mp (Nat.eq_zero_of_not_pos h)
    rw [toList, h0] at hk
    exact absurd hk (List.not_mem_nil k)
  obtain ⟨it, hf⟩ := _find_some_of_mem hwf.buckets_ok hbc hk
  unfold insertStep
  rw [insert_of_bc_pos hash t k (Nat.pos_iff_ne_zero.mp hbc),
    insert_core_found hash t k it hf]

lemma insertStep_new {K : Type} [DecidableEq K] (hash : K → Nat) (t : HashSet K)
    (k : K) (hwf : WF hash t) (hk : k ∉ toList t)
    (hcap : t.m_n_elements + 1 ≤ 824633720831) :
    WF hash (insertStep hash t k)
    ∧ (toList (insertStep hash t k)).Perm (k :: toList t) := by
  obtain ⟨t2, pos, hrun, hwf2, hperm2, _⟩ := insert_main hash t k hwf hk hcap
  unfold insertStep
  rw [hrun]
  exact ⟨hwf2, hperm2⟩

lemma insertSeq_invariant {K : Type} [DecidableEq K] (hash : K → Nat) :
    ∀ (ks : List K) (t : HashSet K), WF hash t →
      (toList t).length + ks.length ≤ 824633720831 →
      WF hash (ks.foldl (insertStep hash) t)
      ∧ (∀ x, x ∈ toList (ks.foldl (insertStep hash) t) ↔ x ∈ toList t ∨ x ∈ ks) := by
  intro ks
  induction ks with
  | nil =>
    intro t hwf _
    exact ⟨hwf, fun x => by simp⟩
  | cons k rest ih =>
    intro t hwf hcap
    rw [List.foldl_cons]
    by_cases hk : k ∈ toList t
    · rw [insertStep_mem hash t k hwf hk]
      obtain ⟨h1, h2⟩ := ih t hwf (by rw [List.length_cons] at hcap; omega)
      refine ⟨h1, fun x => ?_⟩
      rw [h2 x, List.mem_cons]
      constructor
      · rintro (hx | hx)
        · exact Or.inl hx
        · exact Or.inr (Or.inr hx)
      · rintro (hx | hx | hx)
        · exact Or.inl hx
        · exact Or.inl (hx ▸ hk)
        · exact Or.inr hx
    · have hcap1 : t.m_n_elements + 1 ≤ 824633720831 := by
        rw [hwf.count_eq]
        rw [List.length_cons] at hcap
        omega
      obtain ⟨hwf2, hperm2⟩ := insertStep_new hash t k hwf hk hcap1
      have hlen2 : (toList (insertStep hash t k)).length = (toList t).length + 1 := by
        rw [hperm2.length_eq, List.length_cons]
      obtain ⟨h1, h2⟩ := ih (insertStep hash t k) hwf2
        (by rw [hlen2]; rw [List.length_cons] at hcap; omega)
      refine ⟨h1, fun x => ?_⟩
      rw [h2 x, hperm2.mem_iff, List.mem_cons, List.mem_cons]
      tauto

/-- Claim C2: for every `insert(k)` of a key not already present into a
well-formed table with at least one bucket, the table rehashes to the next
size class exactly when `(count + 1) / bucket_count() > 1.0` — the load
factor being checked with the pre-insertion count, before the new element is
placed — and the destination bucket index is recomputed after the rehash
(the returned iterator's bucket is computed from the post-growth bucket
count, and the key lands in that bucket); an insert into a table with zero
buckets first grows it to the first nonzero size class (bucket count 1). -/
theorem insert_growth_policy {K : Type} [DecidableEq K] (hash : K → Nat)
    (t : HashSet K) (k : K) (hwf : WF hash t) (hk : k ∉ toList t)
    (hcap : t.m_n_elements + 1 ≤ 824633720831) :
    ∃ t2 pos, insert hash t k = .ok (t2, pos, true)
      ∧ bucket_count t2 = (if bucket_count t = 0 then 1
          else if t.m_n_elements + 1 > bucket_count t then next_size (bucket_count t)
          else bucket_count t)
      ∧ pos.1 = hash k % bucket_count t2
      ∧ k ∈ bucketAt t2 pos.1
      ∧ t2.m_n_elements = t.m_n_elements + 1 := by
  obtain ⟨t2, pos, h1, _, _, h4, h5, h6, h7⟩ := insert_main hash t k hwf hk hcap
  exact ⟨t2, pos, h1, h4, h5, h6, h7⟩

theorem insert_growth_policy_witness :
    ∃ t2 pos, insert (fun x => x) (emptyTable : HashSet Nat) 5 = .ok (t2, pos, true)
      ∧ bucket_count t2 = (if bucket_count (emptyTable : HashSet Nat) = 0 then 1
          else if (emptyTable : HashSet Nat).m_n_elements + 1
              > bucket_count (emptyTable : HashSet Nat)
          then next_size (bucket_count (emptyTable : HashSet Nat))
          else bucket_count (emptyTable : HashSet Nat))
      ∧ pos.1 = 5 % bucket_count t2
      ∧ 5 ∈ bucketAt t2 pos.1
      ∧ t2.m_n_elements = (emptyTable : HashSet Nat).m_n_elements + 1 :=
  insert_growth_policy (fun x => x) emptyTable 5 (WF_emptyTable _)
    (List.not_mem_nil 5) (by decide)

/-- Claim C3: for every table and every `new_size ≥ 1` on which
`rehash(new_size)` returns, the set of elements reachable by a full
iteration after the call is identical (as a set) to the set reachable
before, and `bucket_count()` afterwards is the smallest size-class value
greater than or equal to `new_size`. -/
theorem rehash_preserves_membership {K : Type} (hash : K → Nat) (t t2 : HashSet K)
    (ns : Nat) (hns : 1 ≤ ns) (h : rehash hash t ns = .ok t2) :
    (∀ x, x ∈ toList t2 ↔ x ∈ toList t)
    ∧ bucket_count t2 ∈ table_sizes
    ∧ ns ≤ bucket_count t2
    ∧ (∀ s ∈ table_sizes, ns ≤ s → bucket_count t2 ≤ s) := by
  cases hg : get_size_from_hint ns with
  | none =>
    rw [rehash] at h
    rw [hg] at h
    exact absurd h (by simp)
  | some sz =>
    rw [rehash] at h
    rw [hg] at h
    have ht2 : t2 = ⟨distribute hash (toList t) sz, t.m_n_elements⟩ := by
      have h2 : Except.ok (ε := PiranhaError)
          (⟨distribute hash (toList t) sz, t.m_n_elements⟩ : HashSet K) = Except.ok t2 := h
      injection h2 with h3
      exact h3.symm
    subst ht2
    obtain ⟨hmem, hge, hmin⟩ := get_size_from_hint_spec hg
    have hpos : 0 < sz := Nat.lt_of_lt_of_le hns hge
    have hbc : bucket_count (⟨distribute hash (toList t) sz, t.m_n_elements⟩ : HashSet K)
        = sz := distribute_length hash _ sz
    have hperm := distribute_perm hash (toList t) sz hpos
    refine ⟨fun x => hperm.mem_iff, ?_, ?_, ?_⟩
    · rw [hbc]; exact hmem
    · rw [hbc]; exact hge
    · intro s hs hges
      rw [hbc]
      exact hmin s hs hges

theorem rehash_preserves_membership_witness :
    (∀ x, x ∈ toList (⟨distribute (fun y => y) (toList (⟨[[3], [4]], 2⟩ : HashSet Nat)) 3, 2⟩
        : HashSet Nat) ↔ x ∈ toList (⟨[[3], [4]], 2⟩ : HashSet Nat))
    ∧ bucket_count (⟨distribute (fun y => y) (toList (⟨[[3], [4]], 2⟩ : HashSet Nat)) 3, 2⟩
        : HashSet Nat) ∈ table_sizes
    ∧ 2 ≤ bucket_count (⟨distribute (fun y => y) (toList (⟨[[3], [4]], 2⟩ : HashSet Nat)) 3, 2⟩
        : HashSet Nat)
    ∧ (∀ s ∈ table_sizes, 2 ≤ s →
        bucket_count (⟨distribute (fun y => y) (toList (⟨[[3], [4]], 2⟩ : HashSet Nat)) 3, 2⟩
          : HashSet Nat) ≤ s) :=
  rehash_preserves_membership (fun y => y) (⟨[[3], [4]], 2⟩ : HashSet Nat)
    (⟨distribute (fun y => y) (toList (⟨[[3], [4]], 2⟩ : HashSet Nat)) 3, 2⟩ : HashSet Nat)
    2 (by norm_num) (by rfl)

/-- Claim C5: when a key equal to `k` is already present in the destination
bucket, `insert(k)` returns the pair (iterator to the existing element,
`false`) and the table is not mutated (the same table value is returned:
size, bucket count and every stored element are unchanged); and after any
sequence of `insert` calls starting from an empty table the table contains
exactly one element per distinct inserted key (full iteration is duplicate
free and reaches exactly the inserted keys) and `size()` equals that
count. -/
theorem insert_no_mutation_and_uniqueness {K : Type} [DecidableEq K]
    (hash : K → Nat) (t : HashSet K) (k : K) (it : Nat × Nat)
    (hfound : find hash t k = some it)
    (ks : List K) (hks : ks.length ≤ 824633720831) :
    (insert hash t k = .ok (t, it, false) ∧ (bucketAt t it.1)[it.2]? = some k)
    ∧ ((toList (insertSeq hash ks)).Nodup
       ∧ (∀ x, x ∈ toList (insertSeq hash ks) ↔ x ∈ ks)
       ∧ (insertSeq hash ks).m_n_elements = (toList (insertSeq hash ks)).length) := by
  constructor
  · obtain ⟨h1, _, h3⟩ := find_some_insert hash t k it hfound
    exact ⟨h1, h3⟩
  · obtain ⟨h1, h2⟩ := insertSeq_invariant hash ks emptyTable (WF_emptyTable hash)
      (by show 0 + ks.length ≤ 824633720831; omega)
    refine ⟨h1.nodup, fun x => ?_, h1.count_eq⟩
    show x ∈ toList (ks.foldl (insertStep hash) emptyTable) ↔ x ∈ ks
    rw [h2 x]
    simp [toList, emptyTable]

theorem insert_no_mutation_and_uniqueness_witness :
    (insert (fun x => x) (⟨[[5]], 1⟩ : HashSet Nat) 5
        = .ok (⟨[[5]], 1⟩, (0, 0), false)
      ∧ (bucketAt (⟨[[5]], 1⟩ : HashSet Nat) (0, 0).1)[(0, 0).2]? = some 5)
    ∧ ((toList (insertSeq (fun x => x) [1, 3, 5, 3])).Nodup
       ∧ (∀ x, x ∈ toList (insertSeq (fun x => x) [1, 3, 5, 3]) ↔ x ∈ [1, 3, 5, 3])
       ∧ (insertSeq (fun x => x) [1, 3, 5, 3]).m_n_elements
          = (toList (insertSeq (fun x => x) [1, 3, 5, 3])).length) :=
  insert_no_mutation_and_uniqueness (fun x => x) (⟨[[5]], 1⟩ : HashSet Nat) 5 (0, 0)
    (by rfl) [1, 3, 5, 3] (by norm_num)

/-- Claim C8: erasing the head element of a single-element bucket leaves that
bucket empty while the bucket's array slot itself remains (the bucket count
is unchanged); erasing the head element of a two-element bucket leaves a
one-element bucket whose sole element is the former second element, now
stored in the inline head position (position 0) of the bucket's array slot,
the chain having no remaining heap node. -/
theorem erase_head_inline {K : Type} (t1 t2 : HashSet K) (i1 i2 : Nat) (x y z : K) :
    (bucketAt t1 i1 = [x] →
      bucketAt (_erase t1 i1 0) i1 = []
      ∧ bucket_count (_erase t1 i1 0) = bucket_count t1)
    ∧ (bucketAt t2 i2 = [y, z] →
      bucketAt (_erase t2 i2 0) i2 = [z]
      ∧ bucket_count (_erase t2 i2 0) = bucket_count t2) := by
  constructor
  · intro hb
    have hi : i1 < bucket_count t1 := bucketAt_in_range hb (by simp)
    constructor
    · rw [_erase, bucketAt, hb]
      exact getD_set_self _ _ _ _ hi
    · exact List.length_set _ _ _
  · intro hb
    have hi : i2 < bucket_count t2 := bucketAt_in_range hb (by simp)
    constructor
    · rw [_erase, bucketAt, hb]
      exact getD_set_self _ _ _ _ hi
    · exact List.length_set _ _ _

theorem erase_head_inline_witness :
    (bucketAt (_erase (⟨[[5]], 1⟩ : HashSet Nat) 0 0) 0 = []
      ∧ bucket_count (_erase (⟨[[5]], 1⟩ : HashSet Nat) 0 0)
          = bucket_count (⟨[[5]], 1⟩ : HashSet Nat))
    ∧ (bucketAt (_erase (⟨[[5, 9]], 1⟩ : HashSet Nat) 0 0) 0 = [9]
      ∧ bucket_count (_erase (⟨[[5, 9]], 1⟩ : HashSet Nat) 0 0)
          = bucket_count (⟨[[5, 9]], 1⟩ : HashSet Nat)) :=
  ⟨(erase_head_inline (⟨[[5]], 1⟩ : HashSet Nat) (⟨[[5, 9]], 1⟩ : HashSet Nat)
      0 0 5 5 9).1 (by rfl),
   (erase_head_inline (⟨[[5]], 1⟩ : HashSet Nat) (⟨[[5, 9]], 1⟩ : HashSet Nat)
      0 0 5 5 9).2 (by rfl)⟩

end Piranha
